import Mathlib

/-!
Shallow embedding of the core of the `anagram-phrases` repository
(`src/primes.rs`, `src/words.rs`, `src/search.rs`, `src/session.rs`,
`src/languages.rs`) together with theorems settling the frozen claims.

Characters are modelled by their Unicode scalar values (`Nat`); a string is
a `Word := List Nat`.  The Unicode character predicates (`is_alphabetic`,
`is_whitespace`, `is_uppercase`, `to_lowercase`) are modelled exactly on the
Latin-1 repertoire (code points up to U+00FF), which is the full range the
program's prime table supports (`hash` returns `None` above U+00FF).
`num_bigint::BigUint` is modelled by `Nat`.
-/

/-- A string, as its list of Unicode scalar values. -/
abbrev Word := List Nat

/-- Rust `char::is_alphabetic` restricted to the Latin-1 repertoire:
ASCII letters plus U+00AA, U+00B5, U+00BA and the Latin-1 letters
U+00C0–U+00D6, U+00D8–U+00F6, U+00F8–U+00FF. -/
def isAlphabetic (c : Nat) : Bool :=
  (0x41 ≤ c && c ≤ 0x5A) || (0x61 ≤ c && c ≤ 0x7A) ||
  c == 0xAA || c == 0xB5 || c == 0xBA ||
  (0xC0 ≤ c && c ≤ 0xD6) || (0xD8 ≤ c && c ≤ 0xF6) || (0xF8 ≤ c && c ≤ 0xFF)

/-- Rust `char::is_uppercase` restricted to the Latin-1 repertoire:
A–Z and À–Þ except the multiplication sign U+00D7. -/
def isUppercaseChar (c : Nat) : Bool :=
  (0x41 ≤ c && c ≤ 0x5A) || (0xC0 ≤ c && c ≤ 0xD6) || (0xD8 ≤ c && c ≤ 0xDE)

/-- Rust `char::is_whitespace` restricted to the Latin-1 repertoire:
TAB–CR, space, NEL (U+0085) and NBSP (U+00A0). -/
def isWhitespaceChar (c : Nat) : Bool :=
  (0x09 ≤ c && c ≤ 0x0D) || c == 0x20 || c == 0x85 || c == 0xA0

/-- Rust `str::to_lowercase`, character-wise, exact on the Latin-1
repertoire: uppercase letters gain 32, everything else is unchanged. -/
def toLowerChar (c : Nat) : Nat :=
  if isUppercaseChar c then c + 32 else c

/-- Rust `char::is_ascii_lowercase`. -/
def isAsciiLowercase (c : Nat) : Bool :=
  0x61 ≤ c && c ≤ 0x7A

/-- Number of bytes of the UTF-8 encoding of one scalar value; Rust
`str::len` sums these.  (`languages::filter` tests `word.len() == 1`.) -/
def utf8Len (c : Nat) : Nat :=
  if c < 0x80 then 1 else if c < 0x800 then 2 else if c < 0x10000 then 3 else 4

/-- Rust `str::len` (byte length of the UTF-8 encoding). -/
def byteLen (w : Word) : Nat :=
  (w.map utf8Len).sum

/-- The `PRIMES` table from `src/primes.rs` (200 primes, verbatim). -/
def PRIMES : List Nat :=
  [2,3,5,7,11,13,17,19,23,29,31,37,41,43,47,53,59,61,67,71,73,79,83,89,97,101,
   103,107,109,113,127,131,137,139,149,151,157,163,167,173,179,181,
   191,193,197,199,211,223,227,229,233,239,241,251,257,263,269,271,
   277,281,283,293,307,311,313,317,331,337,347,349,353,359,367,373,
   379,383,389,397,401,409,419,421,431,433,439,443,449,457,461,463,
   467,479,487,491,499,503,509,521,523,541,547,557,563,569,571,577,
   587,593,599,601,607,613,617,619,631,641,643,647,653,659,661,673,
   677,683,691,701,709,719,727,733,739,743,751,757,761,769,773,787,
   797,809,811,821,823,827,829,839,853,857,859,863,877,881,883,887,
   907,911,919,929,937,941,947,953,967,971,977,983,991,997,1009,1013,
   1019,1021,1031,1033,1039,1049,1051,1061,1063,1069,1087,1091,1093,
   1097,1103,1109,1117,1123,1129,1151,1153,1163,1171,1181,1187,1193,
   1201,1213,1217,1223]

/-- `primes::hash` from `src/primes.rs`: map a code point to an index
within `PRIMES`.  Lowercase ASCII a–z map to 0..26; the whole range
U+00A1–U+00FF (NBSP U+00A0 skipped) maps to 26.. . -/
def hashChar (c : Nat) : Option Nat :=
  if isAsciiLowercase c then
    some (c - 0x61)
  else if 0xA1 ≤ c ∧ c ≤ 0xFF then
    some (26 + c - 0xA1)
  else
    none

/-- The error kinds of `src/error.rs` relevant to the claims. -/
inductive AErr where
  | wordTooLong
  | mismatchedChars
  | charOutOfBounds
  | wordProductTooBig
  | wordProductNotFactor
deriving DecidableEq, Repr

/-- `primes::essential_chars`: lowercase, keep only alphabetic characters,
preserving duplicates and order. -/
def essential_chars (w : Word) : Word :=
  (w.map toLowerChar).filter isAlphabetic

/-- Inner loop of `primes::extract_unique_chars`: push lowercased
alphabetic characters not seen before. -/
def extractUniqueGo : Word → Word → Word
  | seen, [] => seen
  | seen, c :: rest =>
    if isAlphabetic c && !(seen.contains c) then
      extractUniqueGo (seen ++ [c]) rest
    else
      extractUniqueGo seen rest

/-- `primes::extract_unique_chars`: each lowercased alphabetic character
kept once, at its first occurrence. -/
def extract_unique_chars (w : Word) : Word :=
  extractUniqueGo [] (w.map toLowerChar)

/-- `primes::matched_chars`: accept `w` when every character occurs in
`pattern`. -/
def matched_chars (w pattern : Word) : Bool :=
  w.all (fun c => pattern.contains c)

/-- `primes::primes`: map each character of an `essential_chars` string to
its prime, failing with `CharOutOfBounds` on the first unmapped character.
(`PRIMES[index]` is modelled by `getD`; `hash` only yields indices < 121,
within the 200-entry table.) -/
def primesL : Word → Except AErr (List Nat)
  | [] => .ok []
  | c :: rest =>
    match hashChar c with
    | some i => (primesL rest).map (fun ps => PRIMES.getD i 0 :: ps)
    | none => .error .charOutOfBounds

/-- `primes::primes_product`: multiply the primes together.  The source's
`PrimeTooBig` branch is unreachable (`to_biguint` on `u16` never fails),
so the model returns the product directly. -/
def primes_product (ps : List Nat) : Nat :=
  ps.foldl (fun acc p => acc * p) 1

/-- `primes::filter_word` from `src/primes.rs`: the cheap-to-expensive
rejection tiers applied to every dictionary line. -/
def filter_word (word pattern : Word) (inputLength : Nat) (inputProduct : Nat) :
    Except AErr Nat :=
  let wordChars := essential_chars word
  if wordChars.length > inputLength then
    .error .wordTooLong
  else if !(matched_chars (extract_unique_chars word) pattern) then
    .error .mismatchedChars
  else
    match primesL wordChars with
    | .error e => .error e
    | .ok ps =>
      let product := primes_product ps
      if product > inputProduct then
        .error .wordProductTooBig
      else if inputProduct % product ≠ 0 then
        .error .wordProductNotFactor
      else
        .ok product

/-- The signature of a word: product of the primes of its essential
characters (`None` when some character has no prime). -/
def sigWord (w : Word) : Option Nat :=
  match primesL (essential_chars w) with
  | .ok ps => some (primes_product ps)
  | .error _ => none

/-- Byte-lexicographic comparison of words, as Rust `String::cmp`
(UTF-8 byte order coincides with scalar-value order). -/
def lexLe (a b : Word) : Bool :=
  decide (a ≤ b)

/-- Ordered insertion used to model Rust's in-place sorts: any sorting
algorithm satisfying the `sort_unstable` contract (sorted output that is
a permutation of the input) is an admissible refinement. -/
def insertLe (le : Word → Word → Bool) (x : Word) : List Word → List Word
  | [] => [x]
  | y :: ys => if le x y then x :: y :: ys else y :: insertLe le x ys

/-- Insertion sort over words, modelling `sort_unstable`. -/
def sortWords (le : Word → Word → Bool) : List Word → List Word
  | [] => []
  | x :: xs => insertLe le x (sortWords le xs)

/-- `languages::filter` from `src/languages.rs`: decide whether to reject
a dictionary word.  Single-byte words pass only via the allowlist (or the
`skip_short` override); words whose first character is uppercase pass only
via the allowlist (or the `skip_upcase` override). -/
def languages_filter (word : Word) (shortWords upcaseWords : List Word)
    (skipShort skipUpcase : Bool) : Bool :=
  if byteLen word = 1 then
    if skipShort then true
    else if shortWords.isEmpty then false
    else !(shortWords.contains word)
  else
    match word.head? with
    | some ch =>
      if isUppercaseChar ch then
        if skipUpcase then true
        else if upcaseWords.isEmpty then false
        else !(upcaseWords.contains word)
      else false
    | none => false

/-- The `PMap` of `src/primes.rs` (`BTreeMap<BigUint, Vec<String>>`):
an association list kept sorted by key, with unique keys. -/
abbrev PMap := List (Nat × List Word)

/-- One `map.entry(product).and_modify(push; sort_unstable).or_insert(vec[word])`
step of `words::load_and_select`, on the sorted association list. -/
def mapInsert (k : Nat) (w : Word) : PMap → PMap
  | [] => [(k, [w])]
  | (k', ws) :: rest =>
    if k < k' then (k, [w]) :: (k', ws) :: rest
    else if k = k' then (k', sortWords lexLe (ws ++ [w])) :: rest
    else (k', ws) :: mapInsert k w rest

/-- Rust `str::trim`: drop whitespace from both ends. -/
def trimWord (w : Word) : Word :=
  ((w.dropWhile isWhitespaceChar).reverse.dropWhile isWhitespaceChar).reverse

/-- Running state of the `words::load_and_select` line loop. -/
structure LoadState where
  map : PMap
  singles : List Word
  previous : Word
deriving Repr, DecidableEq

/-- One line of the `words::load_and_select` loop: trim, skip blank lines,
adjacent duplicates, excluded words and language-filtered words; pass the
rest through `primes::filter_word`, recording exact matches in the
single-word list and all other accepted words in the map.  `previous` is
updated whenever the word survives the skip checks (even when
`filter_word` rejects it). -/
def selectStep (pattern : Word) (inputLength target : Nat)
    (mustExclude shortWords upcaseWords : List Word)
    (includeShort includeUpcase : Bool) (st : LoadState) (line : Word) :
    LoadState :=
  let word := trimWord line
  if word = [] then st
  else if word = st.previous then st
  else if mustExclude.contains word then st
  else if languages_filter word shortWords upcaseWords includeShort includeUpcase
  then st
  else
    match filter_word word pattern inputLength target with
    | .ok product =>
      if product = target then
        { st with singles := st.singles ++ [word], previous := word }
      else
        { st with map := mapInsert product word st.map, previous := word }
    | .error _ => { st with previous := word }

/-- `words::load_and_select` from `src/words.rs`, for one dictionary file
already split into lines (file I/O and byte decoding are outside the
model).  Returns the lexicon map and the single-word (transposition)
matches. -/
def load_and_select (lines : List Word) (pattern : Word)
    (inputLength target : Nat) (mustExclude shortWords upcaseWords : List Word)
    (includeShort includeUpcase : Bool) : PMap × List Word :=
  let st := lines.foldl
    (selectStep pattern inputLength target mustExclude shortWords upcaseWords
      includeShort includeUpcase)
    { map := [], singles := [], previous := [] }
  (st.map, st.singles)

/-- The `max_phrase_words` normalization of `Session::start`
(`src/session.rs` lines 40–48): when 0, count the whitespace characters of
the trimmed input, then clamp to a minimum of 2. -/
def normalizeMaxPhraseWords (inputString : Word) (maxPhraseWords : Nat) : Nat :=
  let m :=
    if maxPhraseWords = 0 then
      (trimWord inputString).foldl
        (fun acc ch => acc + (if isWhitespaceChar ch then 1 else 0)) 0
    else maxPhraseWords
  if m < 2 then 2 else m

/-- A word-group: the dictionary words sharing one signature. -/
abbrev WGroup := List Word

/-- A candidate phrase: a sequence of word-groups. -/
abbrev Phrase := List WGroup

/-- The deduplicated result collection of `search::Candidate`
(`BTreeMap<String, Vec<Vec<String>>>`): an association list from the
canonical key to the materialized phrase, kept sorted by key. -/
abbrev Results := List (Word × Phrase)

/-- Lookup in the `Candidate` map. -/
def resLookup (k : Word) : Results → Option Phrase
  | [] => none
  | (k', v) :: rest => if k = k' then some v else resLookup k rest

/-- Ordered insertion into the `Candidate` map (`BTreeMap::insert`;
overwrites an existing binding, though `push_if_unique` only inserts
fresh keys). -/
def resInsert (k : Word) (v : Phrase) : Results → Results
  | [] => [(k, v)]
  | (k', v') :: rest =>
    if lexLe k k' then
      if k = k' then (k, v) :: rest else (k, v) :: (k', v') :: rest
    else (k', v') :: resInsert k v rest

/-- Sort the groups of a phrase by their first member
(`phrase.sort_unstable_by(|a, b| a[0].cmp(&b[0]))`); `a[0]` is modelled by
`headI` (groups coming from the lexicon are nonempty). -/
def insertGroup (x : WGroup) : Phrase → Phrase
  | [] => [x]
  | y :: ys => if lexLe x.headI y.headI then x :: y :: ys else y :: insertGroup x ys

/-- Insertion sort of a phrase's groups, modelling `sort_unstable_by` on
first members. -/
def canonicalize : Phrase → Phrase
  | [] => []
  | x :: xs => insertGroup x (canonicalize xs)

/-- Join the first members with single spaces, producing the canonical
string key of `Candidate::push_if_unique`. -/
def candKey (p : Phrase) : Word :=
  List.intercalate [0x20] (p.map (fun g => g.headI))

/-- `Candidate::push_if_unique` from `src/search.rs`: sort the groups,
build the canonical key, and insert the phrase if the key is new.  Returns
the updated map and `some phrase` exactly when it was new. -/
def push_if_unique (res : Results) (phrase : Phrase) : Results × Option Phrase :=
  let sorted := canonicalize phrase
  let key := candKey sorted
  match resLookup key res with
  | some _ => (res, none)
  | none => (resInsert key sorted res, some sorted)

/-- The query context a `SearchBuilder` carries into `brute_force`:
the cache's descending key index paired with each key's word-group, the
query's primes product (net of must-include), and the must-include words. -/
structure Ctx where
  dict : List (Nat × WGroup)
  primesProduct : Nat
  mustInclude : WGroup
deriving Repr, DecidableEq

/-- `STask` from `src/search.rs`: one unit of work. -/
structure STask where
  target : Nat
  index : Nat
  maxWords : Nat
  accumulator : Phrase
  accProduct : Nat
deriving Repr, DecidableEq

/-- `State` from `src/search.rs`: status of exercising the current phrase.
`complete` carries the completed phrase (the `Anagram`'s accumulator). -/
inductive TState where
  | unchanged (t : STask)
  | reject
  | complete (t : STask) (phrase : Phrase)
  | branch (t : STask) (newTask : STask)
deriving Repr, DecidableEq

/-- The initial accumulator of `STask::new`: the must-include words as one
fixed leading group, when present. -/
def mustGroups (ctx : Ctx) : Phrase :=
  if ctx.mustInclude.isEmpty then [] else [ctx.mustInclude]

/-- `STask::new` from `src/search.rs`. -/
def STask.new (ctx : Ctx) (maxWords : Nat) : STask :=
  { target := ctx.primesProduct, index := 0, maxWords,
    accumulator := mustGroups ctx, accProduct := 1 }

/-- `STask::factor_i` from `src/search.rs`: one iteration of factorization
against the lexicon entry at position `i` of the descending key index. -/
def STask.factorI (ctx : Ctx) (t : STask) (i : Nat) : TState :=
  match ctx.dict[i]? with
  | none => .reject
  | some (testProduct, words) =>
    if testProduct > t.target then
      .unchanged { t with index := i + 1 }
    else
      let accumulator := t.accumulator ++ [words]
      if testProduct = t.target then
        .complete { t with index := i + 1 } accumulator
      else
        let accProduct := testProduct * t.accProduct
        if accProduct = ctx.primesProduct then
          .complete { t with index := i + 1 } accumulator
        else if t.maxWords = 1 ∨ accProduct > ctx.primesProduct then
          .reject
        else if t.target % testProduct = 0 then
          .branch { t with index := i + 1 }
            { t with target := t.target / testProduct,
                     maxWords := t.maxWords - 1,
                     accumulator := accumulator, accProduct := accProduct }
        else
          .unchanged { t with index := i + 1 }

/-- Work-in-progress of `brute_force`: the double-ended queue, the
deduplicated results, and — for observing behaviour before deduplication —
the stream of phrases handed to `push_if_unique`, in order. -/
structure BFState where
  deque : List STask
  results : Results
  emitted : List Phrase
deriving Repr, DecidableEq

/-- One iteration of the seeding `for i in 0..limit` loop of
`brute_force`: evaluate the base task at `i` and `push_back` the
surviving tasks (channel sending is outside the model: `tx` is `None`). -/
def seedStep (ctx : Ctx) (base : STask) (st : BFState) (i : Nat) : BFState :=
  match base.factorI ctx i with
  | .unchanged t => { st with deque := st.deque ++ [t] }
  | .reject => st
  | .complete t ph =>
    { deque := st.deque ++ [t],
      results := (push_if_unique st.results ph).1,
      emitted := st.emitted ++ [ph] }
  | .branch t newTask => { st with deque := st.deque ++ [t, newTask] }

/-- The `while let Some(task) = deque.pop_front()` loop of `brute_force`,
with the elapsed-time budget modelled by `fuel`: when the fuel runs out
the loop stops early, exactly as when `max_duration` is exceeded. -/
def bfRun (ctx : Ctx) : Nat → BFState → BFState
  | 0, st => st
  | fuel + 1, st =>
    match st.deque with
    | [] => st
    | task :: rest =>
      match task.factorI ctx task.index with
      | .unchanged t =>
        bfRun ctx fuel { st with deque := t :: rest }
      | .reject =>
        bfRun ctx fuel { st with deque := rest }
      | .complete t ph =>
        bfRun ctx fuel
          { deque := t :: rest,
            results := (push_if_unique st.results ph).1,
            emitted := st.emitted ++ [ph] }
      | .branch t newTask =>
        bfRun ctx fuel { st with deque := newTask :: t :: rest }

/-- `SearchBuilder::brute_force` from `src/search.rs`, returning the full
final state: seed one evaluation per starting index, then drain the deque
(possibly cut short by the time budget, modelled as `fuel`). -/
def bruteForceState (ctx : Ctx) (maxWords fuel : Nat) : BFState :=
  let base := STask.new ctx maxWords
  let seeded := (List.range ctx.dict.length).foldl (seedStep ctx base)
    { deque := [], results := [], emitted := [] }
  bfRun ctx fuel seeded

/-- The result list of `brute_force` (`results.phrases()`: the values of
the `Candidate` map, in key order). -/
def brute_force (ctx : Ctx) (maxWords fuel : Nat) : List Phrase :=
  (bruteForceState ctx maxWords fuel).results.map (fun e => e.2)

/-- The phrases handed to the Deduplicator during `brute_force`, in order,
before deduplication. -/
def bruteForceEmitted (ctx : Ctx) (maxWords fuel : Nat) : List Phrase :=
  (bruteForceState ctx maxWords fuel).emitted

/-- The group comparison used by `canonicalize`. -/
def groupLe (a b : WGroup) : Prop :=
  lexLe a.headI b.headI = true

/-- Tasks reachable from a starting task through `factor_i` transitions:
the surviving task of `Unchanged`/`Complete`, and both the sibling and
the spawned task of `Branch`. -/
inductive ReachableTask (ctx : Ctx) : STask → STask → Prop where
  | refl (t : STask) : ReachableTask ctx t t
  | unchanged {t t' u : STask} {i : Nat} : ReachableTask ctx t t' →
      t'.factorI ctx i = .unchanged u → ReachableTask ctx t u
  | complete {t t' u : STask} {i : Nat} {ph : Phrase} :
      ReachableTask ctx t t' → t'.factorI ctx i = .complete u ph →
      ReachableTask ctx t u
  | branchSibling {t t' u v : STask} {i : Nat} : ReachableTask ctx t t' →
      t'.factorI ctx i = .branch u v → ReachableTask ctx t u
  | branchNew {t t' u v : STask} {i : Nat} : ReachableTask ctx t t' →
      t'.factorI ctx i = .branch u v → ReachableTask ctx t v

/-- Task invariant of the factorization search: the accumulated product
times the remaining target reconstructs the (must-include-reduced) query
product, and the accumulator is the must-include prefix followed by
word-groups drawn from the lexicon whose keys multiply to the accumulated
product. -/
def TaskOK (ctx : Ctx) (t : STask) : Prop :=
  t.accProduct * t.target = ctx.primesProduct ∧
  ∃ gs ks, t.accumulator = mustGroups ctx ++ gs ∧
    List.Forall₂ (fun (g : WGroup) (k : Nat) => (k, g) ∈ ctx.dict) gs ks ∧
    ks.prod = t.accProduct

/-- A sound completed phrase: up to group order, the must-include prefix
followed by lexicon word-groups whose keys multiply to the reduced query
product. -/
def PhraseOK (ctx : Ctx) (p : Phrase) : Prop :=
  ∃ gs ks, p.Perm (mustGroups ctx ++ gs) ∧
    List.Forall₂ (fun (g : WGroup) (k : Nat) => (k, g) ∈ ctx.dict) gs ks ∧
    ks.prod = ctx.primesProduct

/-- Every stored result phrase is sound. -/
def ResultsOK (ctx : Ctx) (res : Results) : Prop :=
  ∀ e ∈ res, PhraseOK ctx e.2

/-- Every queued task satisfies the task invariant. -/
def DequeOK (ctx : Ctx) (deque : List STask) : Prop :=
  ∀ t ∈ deque, TaskOK ctx t

/-- A two-entry lexicon for concrete runs: the words "b" (signature 3)
and "a" (signature 2) against the query "ab" (product 6), no
must-include words. -/
def ctxAB : Ctx :=
  { dict := [(3, [[98]]), (2, [[97]])], primesProduct := 6, mustInclude := [] }

/-- C7: the claim (and the CLI option's own documentation, `src/config.rs`
lines 51–53 and `src/main.rs` lines 50–51) says `max_phrase_words == 0` is
normalized to one more than the number of words of the input phrase with a
minimum of 3 (minimum 2 in some call sites).  The code of `Session::start`
instead counts the whitespace characters of the trimmed input (one less
than the word count for single-space-separated phrases) and clamps to a
minimum of 2: for the two-word input "one two" it produces 2, not 3. -/
theorem session_max_phrase_words_normalization_bug :
    normalizeMaxPhraseWords [111, 110, 101, 32, 116, 119, 111] 0 = 2 ∧
    normalizeMaxPhraseWords [97, 32, 98, 32, 99, 32, 100, 32, 101] 0 = 4 := by
  constructor <;> rfl

/-- C8 counterexample: `hash` maps the non-letter code point U+00D7
(multiplication sign ×) into the extended prime range, index 80, although
the claim says only Latin-1 supplement letters are mapped. -/
theorem hash_maps_nonletter_code_point :
    hashChar 0xD7 = some 80 ∧ isAlphabetic 0xD7 = false := by
  constructor <;> rfl

/-- C8 amended: lowercase ASCII a–z map to indices 0..26 of `PRIMES`;
every code point of U+00A1–U+00FF — letters and non-letters alike — maps
to indices 26..121; every other character maps to `None`. -/
theorem hash_char_ranges (c : Nat) :
    (isAsciiLowercase c = true → hashChar c = some (c - 0x61) ∧ c - 0x61 < 26) ∧
    (isAsciiLowercase c = false → 0xA1 ≤ c → c ≤ 0xFF →
      hashChar c = some (26 + c - 0xA1) ∧ 26 ≤ 26 + c - 0xA1 ∧
        26 + c - 0xA1 < 121) ∧
    (isAsciiLowercase c = false → ¬(0xA1 ≤ c ∧ c ≤ 0xFF) → hashChar c = none) := by
  refine ⟨fun h => ⟨?_, ?_⟩, fun h h1 h2 => ⟨?_, ?_, ?_⟩, fun h h1 => ?_⟩
  · simp [hashChar, h]
  · have : 0x61 ≤ c ∧ c ≤ 0x7A := by simpa [isAsciiLowercase] using h
    omega
  · simp [hashChar, h, h1, h2]
  · omega
  · omega
  · simp [hashChar, h, h1]

/-- Witness for `hash_char_ranges` at a = U+0061 and ÷ = U+00F7. -/
theorem hash_char_ranges_witness :
    hashChar 0x61 = some 0 ∧ hashChar 0xF7 = some 112 := by
  refine ⟨((hash_char_ranges 0x61).1 (by decide)).1, ?_⟩
  exact ((hash_char_ranges 0xF7).2.1 (by decide) (by decide) (by decide)).1

/-- `primes::primes` only ever fails with `CharOutOfBounds`. -/
theorem primesL_error_eq (w : Word) (e : AErr) (h : primesL w = .error e) :
    e = .charOutOfBounds := by
  induction w generalizing e with
  | nil => simp [primesL] at h
  | cons c rest ih =>
    unfold primesL at h
    cases hc : hashChar c with
    | some i =>
      rw [hc] at h
      cases hr : primesL rest with
      | ok ps => rw [hr] at h; simp [Except.map] at h
      | error e' =>
        rw [hr] at h
        simp [Except.map] at h
        exact h ▸ ih e' hr
    | none =>
      rw [hc] at h
      simp at h
      exact h.symm

/-- C3: `filter_word` returns `Ok(p)` only when the signature `p` divides
the target (`p ≤ target` and `target % p == 0`), and it returns
`Err(WordProductNotFactor)` exactly when the word passes the length and
character-set checks, its signature is defined and passes the size check
(`p ≤ target`), but does not evenly divide the target. -/
theorem filter_word_divides (word pattern : Word)
    (inputLength inputProduct : Nat) :
    (∀ p, filter_word word pattern inputLength inputProduct = .ok p →
      p ≤ inputProduct ∧ inputProduct % p = 0) ∧
    (filter_word word pattern inputLength inputProduct =
        .error .wordProductNotFactor ↔
      (essential_chars word).length ≤ inputLength ∧
      matched_chars (extract_unique_chars word) pattern = true ∧
      ∃ ps, primesL (essential_chars word) = .ok ps ∧
        primes_product ps ≤ inputProduct ∧
        inputProduct % primes_product ps ≠ 0) := by
  by_cases h1 : (essential_chars word).length > inputLength
  · have hw : filter_word word pattern inputLength inputProduct =
        .error .wordTooLong := by
      simp [filter_word, h1]
    rw [hw]
    refine ⟨fun p hp => by simp at hp, ?_⟩
    constructor
    · intro h; simp at h
    · rintro ⟨hlen, -⟩; omega
  · by_cases h2 : matched_chars (extract_unique_chars word) pattern
    · cases hps : primesL (essential_chars word) with
      | error e =>
        have he := primesL_error_eq _ _ hps
        subst he
        have hw : filter_word word pattern inputLength inputProduct =
            .error .charOutOfBounds := by
          simp [filter_word, h1, h2, hps]
        rw [hw]
        refine ⟨fun p hp => by simp at hp, ?_⟩
        constructor
        · intro h; simp at h
        · rintro ⟨-, -, ps, hps', -⟩; simp at hps'
      | ok ps =>
        by_cases h3 : primes_product ps > inputProduct
        · have hw : filter_word word pattern inputLength inputProduct =
              .error .wordProductTooBig := by
            simp [filter_word, h1, h2, hps, h3]
          rw [hw]
          refine ⟨fun p hp => by simp at hp, ?_⟩
          constructor
          · intro h; simp at h
          · rintro ⟨-, -, ps', hps', hle, -⟩
            simp at hps'
            subst hps'
            omega
        · by_cases h4 : inputProduct % primes_product ps = 0
          · have hw : filter_word word pattern inputLength inputProduct =
                .ok (primes_product ps) := by
              simp [filter_word, h1, h2, hps, h3, h4]
            rw [hw]
            refine ⟨fun p hp => ?_, ?_⟩
            · simp only [Except.ok.injEq] at hp
              subst hp
              exact ⟨Nat.le_of_not_lt h3, h4⟩
            · constructor
              · intro h; simp at h
              · rintro ⟨-, -, ps', hps', -, hrem⟩
                simp at hps'
                subst hps'
                omega
          · have hw : filter_word word pattern inputLength inputProduct =
                .error .wordProductNotFactor := by
              simp [filter_word, h1, h2, hps, h3, h4]
            rw [hw]
            refine ⟨fun p hp => by simp at hp, ?_⟩
            simp only [true_iff]
            exact ⟨Nat.le_of_not_lt h1, h2, ps, rfl, Nat.le_of_not_lt h3, h4⟩
    · have hw : filter_word word pattern inputLength inputProduct =
          .error .mismatchedChars := by
        simp [filter_word, h1, h2]
      rw [hw]
      refine ⟨fun p hp => by simp at hp, ?_⟩
      constructor
      · intro h; simp at h
      · rintro ⟨-, hm, -⟩; exact absurd hm h2

/-- Witness for `filter_word_divides`: the word "ab" against a target with
signature 30 yields `Ok(6)`, with `6 ≤ 30` and `30 % 6 == 0`. -/
theorem filter_word_divides_witness :
    6 ≤ 30 ∧ 30 % 6 = 0 :=
  (filter_word_divides [97, 98] [97, 98, 99] 3 30).1 6 (by rfl)

/-- The first 121 entries of `PRIMES` (the range `hash` can produce) are
pairwise distinct. -/
theorem primes_take_nodup : (PRIMES.take 121).Nodup := by decide

/-- `PRIMES.getD · 0` is injective on indices below 121. -/
theorem primes_getD_inj (i j : Nat) (hi : i < 121) (hj : j < 121)
    (h : PRIMES.getD i 0 = PRIMES.getD j 0) : i = j := by
  have hlen : (PRIMES.take 121).length = 121 := by decide
  have hi' : i < (PRIMES.take 121).length := by omega
  have hj' : j < (PRIMES.take 121).length := by omega
  have hip : i < PRIMES.length := by
    have : (PRIMES.take 121).length ≤ PRIMES.length := by
      simp [List.length_take]
    omega
  have hjp : j < PRIMES.length := by
    have : (PRIMES.take 121).length ≤ PRIMES.length := by
      simp [List.length_take]
    omega
  have h1 : (PRIMES.take 121)[i] = (PRIMES.take 121)[j] := by
    rw [List.getElem_take, List.getElem_take]
    rw [List.getD_eq_getElem PRIMES 0 hip, List.getD_eq_getElem PRIMES 0 hjp] at h
    exact h
  exact (primes_take_nodup.getElem_inj_iff.mp h1)

/-- Characterization of a successful `hash`. -/
theorem hashChar_some (c i : Nat) (h : hashChar c = some i) :
    (0x61 ≤ c ∧ c ≤ 0x7A ∧ i = c - 0x61) ∨
    (0xA1 ≤ c ∧ c ≤ 0xFF ∧ i = 26 + c - 0xA1) := by
  unfold hashChar at h
  by_cases h1 : isAsciiLowercase c
  · rw [if_pos h1] at h
    simp at h
    have : 0x61 ≤ c ∧ c ≤ 0x7A := by simpa [isAsciiLowercase] using h1
    exact Or.inl ⟨this.1, this.2, h.symm⟩
  · rw [if_neg h1] at h
    by_cases h2 : 0xA1 ≤ c ∧ c ≤ 0xFF
    · rw [if_pos h2] at h
      simp at h
      exact Or.inr ⟨h2.1, h2.2, h.symm⟩
    · rw [if_neg h2] at h
      simp at h

/-- `primes::primes` maps permuted character lists to permuted prime lists
(or fails on both). -/
theorem primesL_perm (w₁ w₂ : Word) (h : w₁.Perm w₂) :
    (∃ ps₁ ps₂, primesL w₁ = .ok ps₁ ∧ primesL w₂ = .ok ps₂ ∧ ps₁.Perm ps₂) ∨
    (∃ e₁ e₂, primesL w₁ = .error e₁ ∧ primesL w₂ = .error e₂) := by
  induction h with
  | nil => exact Or.inl ⟨[], [], rfl, rfl, List.Perm.nil⟩
  | cons x h ih =>
    rename_i l₁ l₂
    cases hc : hashChar x with
    | none => exact Or.inr ⟨.charOutOfBounds, .charOutOfBounds,
        by simp [primesL, hc], by simp [primesL, hc]⟩
    | some i =>
      rcases ih with ⟨ps₁, ps₂, h₁, h₂, hp⟩ | ⟨e₁, e₂, h₁, h₂⟩
      · exact Or.inl ⟨PRIMES.getD i 0 :: ps₁, PRIMES.getD i 0 :: ps₂,
          by simp [primesL, hc, h₁, Except.map],
          by simp [primesL, hc, h₂, Except.map], List.Perm.cons _ hp⟩
      · exact Or.inr ⟨e₁, e₂,
          by simp [primesL, hc, h₁, Except.map],
          by simp [primesL, hc, h₂, Except.map]⟩
  | swap x y l =>
    cases hx : hashChar x with
    | none =>
      cases hy : hashChar y with
      | none => exact Or.inr ⟨.charOutOfBounds, .charOutOfBounds,
          by simp [primesL, hx, hy], by simp [primesL, hx, hy]⟩
      | some j => exact Or.inr ⟨.charOutOfBounds, .charOutOfBounds,
          by simp [primesL, hx, hy, Except.map], by simp [primesL, hx, hy, Except.map]⟩
    | some i =>
      cases hy : hashChar y with
      | none => exact Or.inr ⟨.charOutOfBounds, .charOutOfBounds,
          by simp [primesL, hx, hy, Except.map], by simp [primesL, hx, hy, Except.map]⟩
      | some j =>
        cases hl : primesL l with
        | ok ps =>
          refine Or.inl ⟨PRIMES.getD j 0 :: PRIMES.getD i 0 :: ps,
            PRIMES.getD i 0 :: PRIMES.getD j 0 :: ps, ?_, ?_, List.Perm.swap _ _ _⟩
          · simp [primesL, hx, hy, hl, Except.map]
          · simp [primesL, hx, hy, hl, Except.map]
        | error e =>
          refine Or.inr ⟨e, e, ?_, ?_⟩
          · simp [primesL, hx, hy, hl, Except.map]
          · simp [primesL, hx, hy, hl, Except.map]
  | trans h₁₂ h₂₃ ih₁ ih₂ =>
    rcases ih₁ with ⟨ps₁, ps₂, ha, hb, hp⟩ | ⟨e₁, e₂, ha, hb⟩
    · rcases ih₂ with ⟨ps₂', ps₃, hb', hc', hp'⟩ | ⟨e₂', e₃, hb', hc'⟩
      · rw [hb] at hb'
        simp at hb'
        subst hb'
        exact Or.inl ⟨ps₁, ps₃, ha, hc', hp.trans hp'⟩
      · rw [hb] at hb'
        simp at hb'
    · rcases ih₂ with ⟨ps₂', ps₃, hb', hc', hp'⟩ | ⟨e₂', e₃, hb', hc'⟩
      · rw [hb] at hb'
        simp at hb'
      · exact Or.inr ⟨e₁, e₃, ha, hc'⟩

/-- C5: the character-to-prime map is injective (no two characters
accepted by `hash` receive the same prime), and the signature is invariant
under any permutation of a word's characters. -/
theorem char_to_prime_injective_and_sig_perm_invariant :
    (∀ c₁ c₂ i₁ i₂, hashChar c₁ = some i₁ → hashChar c₂ = some i₂ →
      PRIMES.getD i₁ 0 = PRIMES.getD i₂ 0 → c₁ = c₂) ∧
    (∀ w₁ w₂ : Word, w₁.Perm w₂ → sigWord w₁ = sigWord w₂) := by
  constructor
  · intro c₁ c₂ i₁ i₂ h₁ h₂ heq
    rcases hashChar_some c₁ i₁ h₁ with ⟨ha, hb, hi⟩ | ⟨ha, hb, hi⟩ <;>
      rcases hashChar_some c₂ i₂ h₂ with ⟨ha', hb', hi'⟩ | ⟨ha', hb', hi'⟩ <;>
      have := primes_getD_inj i₁ i₂ (by omega) (by omega) heq <;> omega
  · intro w₁ w₂ h
    have hperm : (essential_chars w₁).Perm (essential_chars w₂) :=
      List.Perm.filter _ (List.Perm.map _ h)
    rcases primesL_perm _ _ hperm with ⟨ps₁, ps₂, h₁, h₂, hp⟩ | ⟨e₁, e₂, h₁, h₂⟩
    · have e1 : sigWord w₁ = some (primes_product ps₁) := by
        unfold sigWord
        rw [h₁]
      have e2 : sigWord w₂ = some (primes_product ps₂) := by
        unfold sigWord
        rw [h₂]
      have heq : primes_product ps₁ = primes_product ps₂ := by
        unfold primes_product
        rw [← List.prod_eq_foldl, ← List.prod_eq_foldl]
        exact hp.prod_eq
      rw [e1, e2, heq]
    · have e1 : sigWord w₁ = none := by
        unfold sigWord
        rw [h₁]
      have e2 : sigWord w₂ = none := by
        unfold sigWord
        rw [h₂]
      rw [e1, e2]

/-- Witness for `char_to_prime_injective_and_sig_perm_invariant`:
"dog" and "god" have equal signatures. -/
theorem sig_perm_invariant_witness :
    sigWord [100, 111, 103] = sigWord [103, 111, 100] :=
  char_to_prime_injective_and_sig_perm_invariant.2
    [100, 111, 103] [103, 111, 100] (by decide)

/-- Inserting a group is a permutation of consing it. -/
theorem insertGroup_perm (x : WGroup) (p : Phrase) :
    (insertGroup x p).Perm (x :: p) := by
  induction p with
  | nil => simp [insertGroup]
  | cons y ys ih =>
    unfold insertGroup
    by_cases h : lexLe x.headI y.headI
    · rw [if_pos h]
    · rw [if_neg h]
      exact (ih.cons y).trans (List.Perm.swap x y ys)

/-- `canonicalize` permutes the phrase's groups. -/
theorem canonicalize_perm (p : Phrase) : (canonicalize p).Perm p := by
  induction p with
  | nil => simp [canonicalize]
  | cons x xs ih =>
    exact (insertGroup_perm x (canonicalize xs)).trans (ih.cons x)

/-- Inserting into a `groupLe`-sorted phrase keeps it sorted. -/
theorem insertGroup_pairwise (x : WGroup) (p : Phrase)
    (hp : p.Pairwise groupLe) : (insertGroup x p).Pairwise groupLe := by
  induction p with
  | nil => simp [insertGroup, List.Pairwise]
  | cons y ys ih =>
    unfold insertGroup
    by_cases h : lexLe x.headI y.headI
    · rw [if_pos h]
      refine List.Pairwise.cons ?_ hp
      intro b hb
      rcases List.mem_cons.mp hb with hby | hbys
      · exact hby ▸ h
      · have hyb := List.rel_of_pairwise_cons hp hbys
        unfold groupLe lexLe at *
        simp only [decide_eq_true_eq] at *
        exact le_trans h hyb
    · rw [if_neg h]
      have hyx : groupLe y x := by
        unfold groupLe lexLe at *
        simp only [decide_eq_true_eq] at *
        exact le_of_not_le h
      rcases hp with - | ⟨hy, hys⟩
      refine List.Pairwise.cons ?_ (ih hys)
      intro b hb
      rcases List.mem_cons.mp ((insertGroup_perm x ys).mem_iff.mp hb) with hbx | hbys
      · exact hbx ▸ hyx
      · exact hy b hbys

/-- `canonicalize` sorts the groups by their first member. -/
theorem canonicalize_pairwise (p : Phrase) :
    (canonicalize p).Pairwise groupLe := by
  induction p with
  | nil => simp [canonicalize, List.Pairwise]
  | cons x xs ih => exact insertGroup_pairwise x (canonicalize xs) ih

/-- Permuted phrases canonicalize to the same key sequence: the sorted
lists of first members coincide. -/
theorem canonicalize_map_headI_eq (p₁ p₂ : Phrase) (h : p₁.Perm p₂) :
    (canonicalize p₁).map (fun g => g.headI) =
      (canonicalize p₂).map (fun g => g.headI) := by
  haveI : IsAntisymm Word (fun a b => a ≤ b) := ⟨fun a b => le_antisymm⟩
  have hperm : ((canonicalize p₁).map (fun g => g.headI)).Perm
      ((canonicalize p₂).map (fun g => g.headI)) :=
    List.Perm.map _ (((canonicalize_perm p₁).trans h).trans
      (canonicalize_perm p₂).symm)
  have hs₁ : ((canonicalize p₁).map (fun g => g.headI)).Pairwise
      (fun a b => a ≤ b) := by
    refine List.Pairwise.map _ ?_ (canonicalize_pairwise p₁)
    intro a b hab
    simpa [groupLe, lexLe] using hab
  have hs₂ : ((canonicalize p₂).map (fun g => g.headI)).Pairwise
      (fun a b => a ≤ b) := by
    refine List.Pairwise.map _ ?_ (canonicalize_pairwise p₂)
    intro a b hab
    simpa [groupLe, lexLe] using hab
  exact List.eq_of_perm_of_sorted hperm hs₁ hs₂

/-- Looking up the key just inserted finds the inserted phrase. -/
theorem resLookup_resInsert_self (k : Word) (v : Phrase) (res : Results) :
    resLookup k (resInsert k v res) = some v := by
  induction res with
  | nil => simp [resInsert, resLookup]
  | cons e rest ih =>
    unfold resInsert
    by_cases h1 : lexLe k e.1
    · rw [if_pos h1]
      by_cases h2 : k = e.1
      · rw [if_pos h2]
        simp [resLookup]
      · rw [if_neg h2]
        simp [resLookup]
    · rw [if_neg h1]
      have hne : k ≠ e.1 := by
        intro hk
        exact h1 (by simp [hk, lexLe])
      simp [resLookup, hne, ih]

/-- Inserting a fresh key grows the map by exactly one entry. -/
theorem resInsert_fresh_length (k : Word) (v : Phrase) (res : Results)
    (h : resLookup k res = none) :
    (resInsert k v res).length = res.length + 1 := by
  induction res with
  | nil => simp [resInsert]
  | cons e rest ih =>
    unfold resLookup at h
    by_cases hk : k = e.1
    · rw [if_pos hk] at h
      simp at h
    · rw [if_neg hk] at h
      unfold resInsert
      by_cases h1 : lexLe k e.1
      · rw [if_pos h1, if_neg hk]
        simp
      · rw [if_neg h1]
        simp [ih h]

/-- C6: feeding the same candidate phrase to the Deduplicator twice — in
any group order on either call — stores exactly one entry: the first call
returns the materialized (canonicalized) phrase, and any later call with
any permutation of the same groups returns `None` and leaves the stored
results unchanged. -/
theorem push_if_unique_dedups (res : Results) (p₁ p₂ : Phrase)
    (hperm : p₂.Perm p₁)
    (hfresh : resLookup (candKey (canonicalize p₁)) res = none) :
    (push_if_unique res p₁).2 = some (canonicalize p₁) ∧
    (push_if_unique res p₁).1.length = res.length + 1 ∧
    push_if_unique (push_if_unique res p₁).1 p₂ =
      ((push_if_unique res p₁).1, none) := by
  have hkey : candKey (canonicalize p₂) = candKey (canonicalize p₁) := by
    unfold candKey
    rw [canonicalize_map_headI_eq p₂ p₁ hperm]
  have h1 : push_if_unique res p₁ =
      (resInsert (candKey (canonicalize p₁)) (canonicalize p₁) res,
        some (canonicalize p₁)) := by
    simp only [push_if_unique]
    rw [hfresh]
  refine ⟨by rw [h1], ?_, ?_⟩
  · rw [h1]
    exact resInsert_fresh_length _ _ res hfresh
  · rw [h1]
    simp only [push_if_unique]
    rw [hkey, resLookup_resInsert_self]

/-- Witness for `push_if_unique_dedups`: pushing `[["cat"],["dog"]]` into
an empty result set, then pushing `[["dog"],["cat"]]`. -/
theorem push_if_unique_dedups_witness :
    (push_if_unique [] [[[99, 97, 116]], [[100, 111, 103]]]).2 =
      some (canonicalize [[[99, 97, 116]], [[100, 111, 103]]]) ∧
    (push_if_unique [] [[[99, 97, 116]], [[100, 111, 103]]]).1.length =
      ([] : Results).length + 1 ∧
    push_if_unique (push_if_unique [] [[[99, 97, 116]], [[100, 111, 103]]]).1
        [[[100, 111, 103]], [[99, 97, 116]]] =
      ((push_if_unique [] [[[99, 97, 116]], [[100, 111, 103]]]).1, none) :=
  push_if_unique_dedups [] [[[99, 97, 116]], [[100, 111, 103]]]
    [[[100, 111, 103]], [[99, 97, 116]]] (by decide) (by rfl)

/-- Inversion of `Task::factor_i`: exact characterization of the tasks
and phrases each transition produces. -/
theorem factorI_inv (ctx : Ctx) (t : STask) (i : Nat) :
    (∀ u, t.factorI ctx i = .unchanged u → u = { t with index := i + 1 }) ∧
    (∀ u ph, t.factorI ctx i = .complete u ph →
      u = { t with index := i + 1 } ∧
      ∃ tp ws, ctx.dict[i]? = some (tp, ws) ∧
        ph = t.accumulator ++ [ws] ∧
        (tp = t.target ∨ tp * t.accProduct = ctx.primesProduct)) ∧
    (∀ u v, t.factorI ctx i = .branch u v →
      u = { t with index := i + 1 } ∧
      ∃ tp ws, ctx.dict[i]? = some (tp, ws) ∧
        v = { t with target := t.target / tp, maxWords := t.maxWords - 1,
                     accumulator := t.accumulator ++ [ws],
                     accProduct := tp * t.accProduct } ∧
        t.target % tp = 0 ∧ tp ≤ t.target ∧ tp ≠ t.target ∧
        t.maxWords ≠ 1 ∧ tp * t.accProduct ≤ ctx.primesProduct ∧
        tp * t.accProduct ≠ ctx.primesProduct) := by
  cases hd : ctx.dict[i]? with
  | none =>
    have hw : t.factorI ctx i = .reject := by
      unfold STask.factorI
      simp only [hd]
    rw [hw]
    exact ⟨fun u hu => by simp at hu, fun u ph hup => by simp at hup,
      fun u v huv => by simp at huv⟩
  | some pr =>
    obtain ⟨tp, ws⟩ := pr
    by_cases h1 : t.target < tp
    · have hw : t.factorI ctx i = .unchanged { t with index := i + 1 } := by
        unfold STask.factorI
        simp only [hd]
        rw [if_pos h1]
      rw [hw]
      refine ⟨fun u hu => ?_, fun u ph hup => by simp at hup,
        fun u v huv => by simp at huv⟩
      simpa using hu.symm
    · by_cases h2 : tp = t.target
      · have hw : t.factorI ctx i =
            .complete { t with index := i + 1 } (t.accumulator ++ [ws]) := by
          unfold STask.factorI
          simp only [hd]
          rw [if_neg h1, if_pos h2]
        rw [hw]
        refine ⟨fun u hu => by simp at hu, fun u ph hup => ?_,
          fun u v huv => by simp at huv⟩
        simp only [TState.complete.injEq] at hup
        exact ⟨hup.1.symm, tp, ws, rfl, hup.2.symm, Or.inl h2⟩
      · by_cases h3 : tp * t.accProduct = ctx.primesProduct
        · have hw : t.factorI ctx i =
              .complete { t with index := i + 1 } (t.accumulator ++ [ws]) := by
            unfold STask.factorI
            simp only [hd]
            rw [if_neg h1, if_neg h2, if_pos h3]
          rw [hw]
          refine ⟨fun u hu => by simp at hu, fun u ph hup => ?_,
            fun u v huv => by simp at huv⟩
          simp only [TState.complete.injEq] at hup
          exact ⟨hup.1.symm, tp, ws, rfl, hup.2.symm, Or.inr h3⟩
        · by_cases h4 : t.maxWords = 1 ∨ ctx.primesProduct < tp * t.accProduct
          · have hw : t.factorI ctx i = .reject := by
              unfold STask.factorI
              simp only [hd]
              rw [if_neg h1, if_neg h2, if_neg h3, if_pos h4]
            rw [hw]
            exact ⟨fun u hu => by simp at hu, fun u ph hup => by simp at hup,
              fun u v huv => by simp at huv⟩
          · push_neg at h4
            by_cases h5 : t.target % tp = 0
            · have hw : t.factorI ctx i =
                  .branch { t with index := i + 1 }
                    { t with target := t.target / tp,
                             maxWords := t.maxWords - 1,
                             accumulator := t.accumulator ++ [ws],
                             accProduct := tp * t.accProduct } := by
                unfold STask.factorI
                simp only [hd]
                rw [if_neg h1, if_neg h2, if_neg h3,
                  if_neg (by push_neg; exact h4), if_pos h5]
              rw [hw]
              refine ⟨fun u hu => by simp at hu, fun u ph hup => by simp at hup,
                fun u v huv => ?_⟩
              simp only [TState.branch.injEq] at huv
              exact ⟨huv.1.symm, tp, ws, rfl, huv.2.symm, h5,
                Nat.le_of_not_lt h1, h2, h4.1, Nat.le_of_not_lt (by omega), h3⟩
            · have hw : t.factorI ctx i =
                  .unchanged { t with index := i + 1 } := by
                unfold STask.factorI
                simp only [hd]
                rw [if_neg h1, if_neg h2, if_neg h3,
                  if_neg (by push_neg; exact h4), if_neg h5]
              rw [hw]
              refine ⟨fun u hu => ?_, fun u ph hup => by simp at hup,
                fun u v huv => by simp at huv⟩
              simpa using hu.symm

/-- C10: starting from a task whose word budget is at least 1, every task
reachable through `factor_i` transitions keeps `max_words >= 1`, and the
`max_words - 1` subtraction of the Branch transition is only evaluated for
tasks with `max_words >= 2`, so the unsigned counter never underflows. -/
theorem factor_i_budget_no_underflow (ctx : Ctx) (t0 : STask)
    (h0 : 1 ≤ t0.maxWords) :
    ∀ t, ReachableTask ctx t0 t → 1 ≤ t.maxWords ∧
      ∀ i u v, t.factorI ctx i = .branch u v → 2 ≤ t.maxWords := by
  have hstep : ∀ t : STask, 1 ≤ t.maxWords → ∀ i u v,
      t.factorI ctx i = .branch u v → 2 ≤ t.maxWords := by
    intro t ht i u v hb
    obtain ⟨-, tp, ws, -, -, -, -, -, hne1, -⟩ := (factorI_inv ctx t i).2.2 u v hb
    omega
  intro t hreach
  induction hreach with
  | refl => exact ⟨h0, hstep t0 h0⟩
  | unchanged hr hu ih =>
    rename_i t' u i
    have hu' := (factorI_inv ctx t' i).1 u hu
    have : u.maxWords = t'.maxWords := by rw [hu']
    exact ⟨this ▸ ih.1, hstep u (this ▸ ih.1)⟩
  | complete hr hc ih =>
    rename_i t' u i ph
    have hc' := ((factorI_inv ctx t' i).2.1 u ph hc).1
    have : u.maxWords = t'.maxWords := by rw [hc']
    exact ⟨this ▸ ih.1, hstep u (this ▸ ih.1)⟩
  | branchSibling hr hb ih =>
    rename_i t' u v i
    have hb' := ((factorI_inv ctx t' i).2.2 u v hb).1
    have : u.maxWords = t'.maxWords := by rw [hb']
    exact ⟨this ▸ ih.1, hstep u (this ▸ ih.1)⟩
  | branchNew hr hb ih =>
    rename_i t' u v i
    obtain ⟨-, tp, ws, -, hv, -, -, -, hne1, -⟩ := (factorI_inv ctx t' i).2.2 u v hb
    have h2 : 2 ≤ t'.maxWords := by
      have := ih.1
      omega
    have : v.maxWords = t'.maxWords - 1 := by rw [hv]
    have h1v : 1 ≤ v.maxWords := by omega
    exact ⟨h1v, hstep v h1v⟩

/-- Witness for `factor_i_budget_no_underflow`: the initial task of the
concrete "ab" search with budget 2. -/
theorem factor_i_budget_no_underflow_witness :
    1 ≤ (STask.new ctxAB 2).maxWords :=
  (factor_i_budget_no_underflow ctxAB (STask.new ctxAB 2) (by decide)
    (STask.new ctxAB 2) (ReachableTask.refl _)).1

/-- C2 at the failing input: in the seeding loop of `brute_force`, the
base task (whose `index` field is 0) is evaluated at `i = 1`; the Branch
it takes spawns a task that resumes at cursor 0 (`..self` keeps
`self.index`, not `i`), not at `i = 1`.  Consequently the concrete run on
query "ab" with dictionary words "b" (signature 3) and "a" (signature 2)
hands both `[["b"],["a"]]` and `[["a"],["b"]]` — reorderings of the same
group multiset — to the Deduplicator before deduplication. -/
theorem brute_force_emits_permutation_duplicates :
    (STask.new ctxAB 2).factorI ctxAB 1 =
      .branch
        { target := 6, index := 2, maxWords := 2, accumulator := [],
          accProduct := 1 }
        { target := 3, index := 0, maxWords := 1, accumulator := [[[97]]],
          accProduct := 2 } ∧
    [[[98]], [[97]]] ∈ bruteForceEmitted ctxAB 2 30 ∧
    [[[97]], [[98]]] ∈ bruteForceEmitted ctxAB 2 30 ∧
    ([[[98]], [[97]]] : Phrase).Perm [[[97]], [[98]]] ∧
    ([[[98]], [[97]]] : Phrase) ≠ [[[97]], [[98]]] := by
  refine ⟨by rfl, by decide, by decide, by decide, by decide⟩

/-- `insertLe` permutes consing. -/
theorem insertLe_perm (le : Word → Word → Bool) (x : Word) (l : List Word) :
    (insertLe le x l).Perm (x :: l) := by
  induction l with
  | nil => simp [insertLe]
  | cons y ys ih =>
    unfold insertLe
    by_cases h : le x y
    · rw [if_pos h]
    · rw [if_neg h]
      exact (ih.cons y).trans (List.Perm.swap x y ys)

/-- `sortWords` permutes its input. -/
theorem sortWords_perm (le : Word → Word → Bool) (l : List Word) :
    (sortWords le l).Perm l := by
  induction l with
  | nil => simp [sortWords]
  | cons x xs ih =>
    exact (insertLe_perm le x (sortWords le xs)).trans (ih.cons x)

/-- Inserting into a `lexLe`-sorted list keeps it sorted. -/
theorem insertLe_pairwise (x : Word) (l : List Word)
    (hl : l.Pairwise (fun a b => lexLe a b = true)) :
    (insertLe lexLe x l).Pairwise (fun a b => lexLe a b = true) := by
  induction l with
  | nil => simp [insertLe, List.Pairwise]
  | cons y ys ih =>
    unfold insertLe
    by_cases h : lexLe x y
    · rw [if_pos h]
      refine List.Pairwise.cons ?_ hl
      intro b hb
      rcases List.mem_cons.mp hb with hby | hbys
      · exact hby ▸ h
      · have hyb := List.rel_of_pairwise_cons hl hbys
        unfold lexLe at *
        simp only [decide_eq_true_eq] at *
        exact le_trans h hyb
    · rw [if_neg h]
      have hyx : lexLe y x = true := by
        unfold lexLe at *
        simp only [decide_eq_true_eq] at *
        exact le_of_not_le h
      rcases hl with - | ⟨hy, hys⟩
      refine List.Pairwise.cons ?_ (ih hys)
      intro b hb
      rcases List.mem_cons.mp ((insertLe_perm lexLe x ys).mem_iff.mp hb) with
        hbx | hbys
      · exact hbx ▸ hyx
      · exact hy b hbys

/-- `sortWords lexLe` sorts. -/
theorem sortWords_pairwise (l : List Word) :
    (sortWords lexLe l).Pairwise (fun a b => lexLe a b = true) := by
  induction l with
  | nil => simp [sortWords, List.Pairwise]
  | cons x xs ih => exact insertLe_pairwise x (sortWords lexLe xs) ih

/-- Every key of `mapInsert k w m` is `k` or a key of `m`. -/
theorem mapInsert_keys (k : Nat) (w : Word) (m : PMap) :
    ∀ k', k' ∈ (mapInsert k w m).map Prod.fst →
      k' = k ∨ k' ∈ m.map Prod.fst := by
  induction m with
  | nil => simp [mapInsert]
  | cons e rest ih =>
    intro k' hk'
    unfold mapInsert at hk'
    by_cases h1 : k < e.1
    · rw [if_pos h1] at hk'
      simp only [List.map_cons, List.mem_cons] at hk' ⊢
      tauto
    · by_cases h2 : k = e.1
      · rw [if_neg h1, if_pos h2] at hk'
        simp only [List.map_cons, List.mem_cons] at hk' ⊢
        tauto
      · rw [if_neg h1, if_neg h2] at hk'
        simp only [List.map_cons, List.mem_cons] at hk' ⊢
        rcases hk' with hk' | hk'
        · tauto
        · rcases ih k' hk' with h | h <;> tauto

/-- `mapInsert` keeps the key sequence strictly ascending. -/
theorem mapInsert_keys_pairwise (k : Nat) (w : Word) (m : PMap)
    (hm : (m.map Prod.fst).Pairwise (· < ·)) :
    ((mapInsert k w m).map Prod.fst).Pairwise (· < ·) := by
  induction m with
  | nil => simp [mapInsert, List.Pairwise]
  | cons e rest ih =>
    simp only [List.map_cons] at hm
    rcases hm with - | ⟨he, hrest⟩
    unfold mapInsert
    by_cases h1 : k < e.1
    · rw [if_pos h1]
      simp only [List.map_cons]
      refine List.Pairwise.cons ?_ (List.Pairwise.cons he hrest)
      intro b hb
      rcases List.mem_cons.mp hb with hbe | hbr
      · omega
      · have := he b hbr
        omega
    · by_cases h2 : k = e.1
      · rw [if_neg h1, if_pos h2]
        simp only [List.map_cons]
        exact List.Pairwise.cons he hrest
      · rw [if_neg h1, if_neg h2]
        simp only [List.map_cons]
        refine List.Pairwise.cons ?_ (ih hrest)
        intro b hb
        rcases mapInsert_keys k w rest b (by simpa using hb) with hbk | hbr
        · omega
        · exact he b hbr

/-- `mapInsert` preserves any per-entry property of keys and words that
the inserted pair satisfies. -/
theorem mapInsert_forall (P : Nat → Prop) (Q : Nat → Word → Prop)
    (k : Nat) (w : Word) (m : PMap)
    (hm : ∀ e ∈ m, P e.1 ∧ ∀ x ∈ e.2, Q e.1 x)
    (hP : P k) (hw : Q k w) :
    ∀ e ∈ mapInsert k w m, P e.1 ∧ ∀ x ∈ e.2, Q e.1 x := by
  induction m with
  | nil =>
    intro e he
    simp [mapInsert] at he
    subst he
    exact ⟨hP, by simpa using hw⟩
  | cons e0 rest ih =>
    intro e he
    unfold mapInsert at he
    by_cases h1 : k < e0.1
    · rw [if_pos h1] at he
      rcases List.mem_cons.mp he with he' | he'
      · subst he'
        exact ⟨hP, by simpa using hw⟩
      · exact hm e he'
    · by_cases h2 : k = e0.1
      · rw [if_neg h1, if_pos h2] at he
        rcases List.mem_cons.mp he with he' | he'
        · subst he'
          refine ⟨h2 ▸ hP, ?_⟩
          intro x hx
          rcases List.mem_append.mp
              ((sortWords_perm lexLe _).mem_iff.mp hx) with hx' | hx'
          · exact (hm e0 (List.mem_cons_self _ _)).2 x hx'
          · simp at hx'
            subst hx'
            exact h2 ▸ hw
        · exact hm e (List.mem_cons_of_mem _ he')
      · rw [if_neg h1, if_neg h2] at he
        rcases List.mem_cons.mp he with he' | he'
        · subst he'
          exact hm e0 (List.mem_cons_self _ _)
        · exact ih (fun e'' he'' => hm e'' (List.mem_cons_of_mem _ he'')) e he'

/-- `mapInsert` keeps every stored word list sorted. -/
theorem mapInsert_lists_sorted (k : Nat) (w : Word) (m : PMap)
    (hm : ∀ e ∈ m, e.2.Pairwise (fun a b => lexLe a b = true)) :
    ∀ e ∈ mapInsert k w m, e.2.Pairwise (fun a b => lexLe a b = true) := by
  induction m with
  | nil =>
    intro e he
    simp [mapInsert] at he
    subst he
    simp [List.Pairwise]
  | cons e0 rest ih =>
    intro e he
    unfold mapInsert at he
    by_cases h1 : k < e0.1
    · rw [if_pos h1] at he
      rcases List.mem_cons.mp he with he' | he'
      · subst he'
        simp [List.Pairwise]
      · exact hm e he'
    · by_cases h2 : k = e0.1
      · rw [if_neg h1, if_pos h2] at he
        rcases List.mem_cons.mp he with he' | he'
        · subst he'
          exact sortWords_pairwise _
        · exact hm e (List.mem_cons_of_mem _ he')
      · rw [if_neg h1, if_neg h2] at he
        rcases List.mem_cons.mp he with he' | he'
        · subst he'
          exact hm e0 (List.mem_cons_self _ _)
        · exact ih (fun e'' he'' => hm e'' (List.mem_cons_of_mem _ he'')) e he'

/-- Characterization of one `load_and_select` line step: the state is
unchanged (word skipped or rejected by `filter_word`, `previous` aside),
or the trimmed word is an exact match appended to the single-word list, or
it is inserted into the map under its signature key. -/
theorem selectStep_cases (pattern : Word) (inputLength target : Nat)
    (mustExclude shortWords upcaseWords : List Word) (incS incU : Bool)
    (st : LoadState) (line : Word) :
    (let st' := selectStep pattern inputLength target mustExclude shortWords
        upcaseWords incS incU st line
     (st'.map = st.map ∧ st'.singles = st.singles) ∨
     (filter_word (trimWord line) pattern inputLength target = .ok target ∧
       st'.map = st.map ∧
       st'.singles = st.singles ++ [trimWord line]) ∨
     (∃ p, filter_word (trimWord line) pattern inputLength target = .ok p ∧
       p ≠ target ∧ st'.map = mapInsert p (trimWord line) st.map ∧
       st'.singles = st.singles)) := by
  simp only
  unfold selectStep
  by_cases g1 : trimWord line = []
  · rw [if_pos g1]
    exact Or.inl ⟨rfl, rfl⟩
  · rw [if_neg g1]
    by_cases g2 : trimWord line = st.previous
    · rw [if_pos g2]
      exact Or.inl ⟨rfl, rfl⟩
    · rw [if_neg g2]
      by_cases g3 : mustExclude.contains (trimWord line)
      · rw [if_pos g3]
        exact Or.inl ⟨rfl, rfl⟩
      · rw [if_neg g3]
        by_cases g4 : languages_filter (trimWord line) shortWords upcaseWords
            incS incU
        · rw [if_pos g4]
          exact Or.inl ⟨rfl, rfl⟩
        · rw [if_neg g4]
          cases hf : filter_word (trimWord line) pattern inputLength target with
          | error e => exact Or.inl ⟨rfl, rfl⟩
          | ok p =>
            by_cases g5 : p = target
            · refine Or.inr (Or.inl ⟨?_, ?_, ?_⟩) <;> simp [g5]
            · refine Or.inr (Or.inr ⟨p, ?_, g5, ?_, ?_⟩) <;> simp [g5]

/-- The acceptance path of one `load_and_select` line step, stated
directly: when the trimmed word survives every skip check and
`filter_word` accepts it with product `p`, an exact match (`p == target`)
is appended to the single-word list leaving the map untouched, and any
other accepted word is inserted into the map under `p`. -/
theorem selectStep_accepted (pattern : Word) (inputLength target : Nat)
    (mustExclude shortWords upcaseWords : List Word) (incS incU : Bool)
    (st : LoadState) (line : Word) (p : Nat)
    (hne : trimWord line ≠ [])
    (hprev : trimWord line ≠ st.previous)
    (hexcl : mustExclude.contains (trimWord line) = false)
    (hlang : languages_filter (trimWord line) shortWords upcaseWords
      incS incU = false)
    (hok : filter_word (trimWord line) pattern inputLength target = .ok p) :
    (p = target →
      selectStep pattern inputLength target mustExclude shortWords
        upcaseWords incS incU st line =
      { st with singles := st.singles ++ [trimWord line],
                previous := trimWord line }) ∧
    (p ≠ target →
      selectStep pattern inputLength target mustExclude shortWords
        upcaseWords incS incU st line =
      { st with map := mapInsert p (trimWord line) st.map,
                previous := trimWord line }) := by
  constructor
  · intro hp
    unfold selectStep
    rw [if_neg hne, if_neg hprev, if_neg (by simpa using hexcl),
      if_neg (by simp [hlang]), hok]
    simp [hp]
  · intro hp
    unfold selectStep
    rw [if_neg hne, if_neg hprev, if_neg (by simpa using hexcl),
      if_neg (by simp [hlang]), hok]
    simp [hp]

/-- C4: after loading, every single-word (transposition) result parses to
exactly the full query signature; every word stored in the multi-word
lexicon map parses to exactly its key, and no key equals the query
signature — so an exact-match word is never inserted into the map.
Together with `selectStep_accepted` (the acceptance path appends exact
matches to the single-word list and inserts every other accepted word
under its signature key), this renders the claim. -/
theorem load_and_select_exact_match (lines : List Word) (pattern : Word)
    (inputLength target : Nat)
    (mustExclude shortWords upcaseWords : List Word) (incS incU : Bool) :
    (∀ w ∈ (load_and_select lines pattern inputLength target mustExclude
        shortWords upcaseWords incS incU).2,
      filter_word w pattern inputLength target = .ok target) ∧
    (∀ e ∈ (load_and_select lines pattern inputLength target mustExclude
        shortWords upcaseWords incS incU).1,
      e.1 ≠ target ∧
        ∀ x ∈ e.2, filter_word x pattern inputLength target = .ok e.1) := by
  have hstep : ∀ (st : LoadState) (line : Word),
      ((∀ w ∈ st.singles,
          filter_word w pattern inputLength target = .ok target) ∧
       (∀ e ∈ st.map, e.1 ≠ target ∧
          ∀ x ∈ e.2, filter_word x pattern inputLength target = .ok e.1)) →
      ((∀ w ∈ (selectStep pattern inputLength target mustExclude shortWords
          upcaseWords incS incU st line).singles,
          filter_word w pattern inputLength target = .ok target) ∧
       (∀ e ∈ (selectStep pattern inputLength target mustExclude shortWords
          upcaseWords incS incU st line).map, e.1 ≠ target ∧
          ∀ x ∈ e.2, filter_word x pattern inputLength target = .ok e.1)) := by
    rintro st line ⟨hs, hm⟩
    rcases selectStep_cases pattern inputLength target mustExclude shortWords
        upcaseWords incS incU st line with
      ⟨hmap, hsing⟩ | ⟨hok, hmap, hsing⟩ | ⟨p, hok, hpne, hmap, hsing⟩
    · constructor
      · intro w hw
        rw [hsing] at hw
        exact hs w hw
      · intro e he
        rw [hmap] at he
        exact hm e he
    · constructor
      · intro w hw
        rw [hsing] at hw
        rcases List.mem_append.mp hw with h | h
        · exact hs w h
        · simp at h
          subst h
          exact hok
      · intro e he
        rw [hmap] at he
        exact hm e he
    · constructor
      · intro w hw
        rw [hsing] at hw
        exact hs w hw
      · intro e he
        rw [hmap] at he
        exact mapInsert_forall (fun k => k ≠ target)
          (fun k x => filter_word x pattern inputLength target = .ok k)
          p (trimWord line) st.map hm hpne hok e he
  have hfold : ∀ (ls : List Word) (st : LoadState),
      ((∀ w ∈ st.singles,
          filter_word w pattern inputLength target = .ok target) ∧
       (∀ e ∈ st.map, e.1 ≠ target ∧
          ∀ x ∈ e.2, filter_word x pattern inputLength target = .ok e.1)) →
      ((∀ w ∈ (ls.foldl (selectStep pattern inputLength target mustExclude
          shortWords upcaseWords incS incU) st).singles,
          filter_word w pattern inputLength target = .ok target) ∧
       (∀ e ∈ (ls.foldl (selectStep pattern inputLength target mustExclude
          shortWords upcaseWords incS incU) st).map, e.1 ≠ target ∧
          ∀ x ∈ e.2, filter_word x pattern inputLength target = .ok e.1)) := by
    intro ls
    induction ls with
    | nil => exact fun st h => h
    | cons l rest ih =>
      intro st h
      exact ih _ (hstep st l h)
  have hinit := hfold lines { map := [], singles := [], previous := [] }
    ⟨by simp, by simp⟩
  exact hinit

/-- Witness for `load_and_select_exact_match`: the single-word list of the
"dog cat dog" load contains only exact matches (vacuously here — there are
none), instantiated at its first stored map entry. -/
theorem load_and_select_exact_match_witness :
    (710 : Nat) ≠ 3971030 ∧
    ∀ x ∈ [[99, 97, 116]],
      filter_word x [100, 111, 103, 99, 97, 116] 6 3971030 = .ok 710 :=
  (load_and_select_exact_match
      [[100, 111, 103], [99, 97, 116], [100, 111, 103]]
      [100, 111, 103, 99, 97, 116] 6 3971030 [] [] [] false false).2
    (710, [[99, 97, 116]]) (by decide)

/-- C9 counterexample: `load_and_select` only suppresses *adjacent*
duplicate lines (`word == previous`), so the stream "dog", "cat", "dog"
(query "dogcat", signature 3971030) stores "dog" twice under its key
5593: the word list under a key is not deduplicated for non-adjacent
repeats. -/
theorem load_and_select_duplicate_word_in_list :
    (5593, [[100, 111, 103], [100, 111, 103]]) ∈
      (load_and_select [[100, 111, 103], [99, 97, 116], [100, 111, 103]]
        [100, 111, 103, 99, 97, 116] 6 3971030 [] [] [] false false).1 ∧
    ¬ ([[100, 111, 103], [100, 111, 103]] : List Word).Nodup := by
  constructor
  · decide
  · decide

/-- C9 amended: the lexicon map built by `load_and_select` always has
strictly ascending (hence unique) keys and keeps every key's word list
sorted; but word lists are deduplicated only against the immediately
preceding kept line, so the same word on non-adjacent lines (or in more
than one dictionary file) can appear twice under its key (see
`load_and_select_duplicate_word_in_list`). -/
theorem load_and_select_keys_unique_lists_sorted (lines : List Word)
    (pattern : Word) (inputLength target : Nat)
    (mustExclude shortWords upcaseWords : List Word) (incS incU : Bool) :
    ((load_and_select lines pattern inputLength target mustExclude
        shortWords upcaseWords incS incU).1.map Prod.fst).Pairwise (· < ·) ∧
    ((load_and_select lines pattern inputLength target mustExclude
        shortWords upcaseWords incS incU).1.map Prod.fst).Nodup ∧
    (∀ e ∈ (load_and_select lines pattern inputLength target mustExclude
        shortWords upcaseWords incS incU).1,
      e.2.Pairwise (fun a b => lexLe a b = true)) := by
  have hstep : ∀ (st : LoadState) (line : Word),
      ((st.map.map Prod.fst).Pairwise (· < ·) ∧
       ∀ e ∈ st.map, e.2.Pairwise (fun a b => lexLe a b = true)) →
      (((selectStep pattern inputLength target mustExclude shortWords
          upcaseWords incS incU st line).map.map Prod.fst).Pairwise (· < ·) ∧
       ∀ e ∈ (selectStep pattern inputLength target mustExclude shortWords
          upcaseWords incS incU st line).map,
          e.2.Pairwise (fun a b => lexLe a b = true)) := by
    rintro st line ⟨hk, hl⟩
    rcases selectStep_cases pattern inputLength target mustExclude shortWords
        upcaseWords incS incU st line with
      ⟨hmap, -⟩ | ⟨-, hmap, -⟩ | ⟨p, -, -, hmap, -⟩
    · rw [hmap]
      exact ⟨hk, hl⟩
    · rw [hmap]
      exact ⟨hk, hl⟩
    · rw [hmap]
      exact ⟨mapInsert_keys_pairwise p (trimWord line) st.map hk,
        mapInsert_lists_sorted p (trimWord line) st.map hl⟩
  have hfold : ∀ (ls : List Word) (st : LoadState),
      ((st.map.map Prod.fst).Pairwise (· < ·) ∧
       ∀ e ∈ st.map, e.2.Pairwise (fun a b => lexLe a b = true)) →
      (((ls.foldl (selectStep pattern inputLength target mustExclude
          shortWords upcaseWords incS incU) st).map.map
            Prod.fst).Pairwise (· < ·) ∧
       ∀ e ∈ (ls.foldl (selectStep pattern inputLength target mustExclude
          shortWords upcaseWords incS incU) st).map,
          e.2.Pairwise (fun a b => lexLe a b = true)) := by
    intro ls
    induction ls with
    | nil => exact fun st h => h
    | cons l rest ih =>
      intro st h
      exact ih _ (hstep st l h)
  have hinit := hfold lines { map := [], singles := [], previous := [] }
    ⟨by simp, by simp⟩
  exact ⟨hinit.1, hinit.1.imp (fun h => Nat.ne_of_lt h), hinit.2⟩

/-- Witness for `load_and_select_keys_unique_lists_sorted` at the
"dog cat dog" stream: its keys are unique and the stored list under key
5593 is sorted. -/
theorem load_and_select_keys_unique_witness :
    ((load_and_select [[100, 111, 103], [99, 97, 116], [100, 111, 103]]
      [100, 111, 103, 99, 97, 116] 6 3971030 [] [] [] false
      false).1.map Prod.fst).Nodup ∧
    ([[100, 111, 103], [100, 111, 103]] : List Word).Pairwise
      (fun a b => lexLe a b = true) :=
  ⟨(load_and_select_keys_unique_lists_sorted
      [[100, 111, 103], [99, 97, 116], [100, 111, 103]]
      [100, 111, 103, 99, 97, 116] 6 3971030 [] [] [] false false).2.1,
   (load_and_select_keys_unique_lists_sorted
      [[100, 111, 103], [99, 97, 116], [100, 111, 103]]
      [100, 111, 103, 99, 97, 116] 6 3971030 [] [] [] false false).2.2
     (5593, [[100, 111, 103], [100, 111, 103]]) (by decide)⟩

/-- Members of `resInsert` are the inserted pair or old members. -/
theorem resInsert_mem (k : Word) (v : Phrase) (res : Results) :
    ∀ e ∈ resInsert k v res, e = (k, v) ∨ e ∈ res := by
  induction res with
  | nil => simp [resInsert]
  | cons e0 rest ih =>
    intro e he
    unfold resInsert at he
    by_cases h1 : lexLe k e0.1
    · rw [if_pos h1] at he
      by_cases h2 : k = e0.1
      · rw [if_pos h2] at he
        rcases List.mem_cons.mp he with he' | he'
        · exact Or.inl he'
        · exact Or.inr (List.mem_cons_of_mem _ he')
      · rw [if_neg h2] at he
        rcases List.mem_cons.mp he with he' | he'
        · exact Or.inl he'
        · exact Or.inr he'
    · rw [if_neg h1] at he
      rcases List.mem_cons.mp he with he' | he'
      · exact Or.inr (he' ▸ List.mem_cons_self _ _)
      · rcases ih e he' with h | h
        · exact Or.inl h
        · exact Or.inr (List.mem_cons_of_mem _ h)

/-- Old members survive a fresh-key insertion. -/
theorem resInsert_mem_of_fresh (k : Word) (v : Phrase) (res : Results)
    (hfresh : resLookup k res = none) :
    ∀ e ∈ res, e ∈ resInsert k v res := by
  induction res with
  | nil => simp
  | cons e0 rest ih =>
    intro e he
    unfold resLookup at hfresh
    by_cases hk : k = e0.1
    · rw [if_pos hk] at hfresh
      simp at hfresh
    · rw [if_neg hk] at hfresh
      unfold resInsert
      by_cases h1 : lexLe k e0.1
      · rw [if_pos h1, if_neg hk]
        exact List.mem_cons_of_mem _ he
      · rw [if_neg h1]
        rcases List.mem_cons.mp he with he' | he'
        · exact he' ▸ List.mem_cons_self _ _
        · exact List.mem_cons_of_mem _ (ih hfresh e he')

/-- Computation laws of `push_if_unique`. -/
theorem push_if_unique_hit (res : Results) (ph : Phrase) (v : Phrase)
    (hl : resLookup (candKey (canonicalize ph)) res = some v) :
    push_if_unique res ph = (res, none) := by
  simp only [push_if_unique]
  rw [hl]

/-- Computation law of `push_if_unique` on a fresh key. -/
theorem push_if_unique_fresh (res : Results) (ph : Phrase)
    (hl : resLookup (candKey (canonicalize ph)) res = none) :
    push_if_unique res ph =
      (resInsert (candKey (canonicalize ph)) (canonicalize ph) res,
        some (canonicalize ph)) := by
  simp only [push_if_unique]
  rw [hl]

/-- Old members survive `push_if_unique`. -/
theorem push_if_unique_mem (res : Results) (ph : Phrase) :
    ∀ e ∈ res, e ∈ (push_if_unique res ph).1 := by
  intro e he
  cases hl : resLookup (candKey (canonicalize ph)) res with
  | some v =>
    rw [push_if_unique_hit res ph v hl]
    exact he
  | none =>
    rw [push_if_unique_fresh res ph hl]
    exact resInsert_mem_of_fresh (candKey (canonicalize ph))
      (canonicalize ph) res hl e he

/-- `PhraseOK` is stable under permutation of the groups. -/
theorem PhraseOK_of_perm (ctx : Ctx) (p q : Phrase) (hpq : q.Perm p)
    (hp : PhraseOK ctx p) : PhraseOK ctx q := by
  obtain ⟨gs, ks, hperm, hf, hprod⟩ := hp
  exact ⟨gs, ks, hpq.trans hperm, hf, hprod⟩

/-- `push_if_unique` preserves soundness of the stored results when the
pushed phrase is sound. -/
theorem push_if_unique_resultsOK (ctx : Ctx) (res : Results) (ph : Phrase)
    (hres : ResultsOK ctx res) (hph : PhraseOK ctx ph) :
    ResultsOK ctx (push_if_unique res ph).1 := by
  intro e he
  cases hl : resLookup (candKey (canonicalize ph)) res with
  | some v =>
    rw [push_if_unique_hit res ph v hl] at he
    exact hres e he
  | none =>
    rw [push_if_unique_fresh res ph hl] at he
    rcases resInsert_mem _ _ res e he with he' | he'
    · rw [he']
      exact PhraseOK_of_perm ctx ph _ (canonicalize_perm ph) hph
    · exact hres e he'

/-- `factor_i` preserves the task invariant, and every completed phrase is
structurally sound. -/
theorem factorI_taskOK (ctx : Ctx) (t : STask) (i : Nat)
    (ht : TaskOK ctx t) :
    (∀ u, t.factorI ctx i = .unchanged u → TaskOK ctx u) ∧
    (∀ u ph, t.factorI ctx i = .complete u ph → TaskOK ctx u ∧
      ∃ gs ks, ph = mustGroups ctx ++ gs ∧
        List.Forall₂ (fun (g : WGroup) (k : Nat) => (k, g) ∈ ctx.dict) gs ks ∧
        ks.prod = ctx.primesProduct) ∧
    (∀ u v, t.factorI ctx i = .branch u v → TaskOK ctx u ∧ TaskOK ctx v) := by
  obtain ⟨hprod, gs, ks, hacc, hf, hks⟩ := ht
  refine ⟨fun u hu => ?_, fun u ph hup => ?_, fun u v huv => ?_⟩
  · have := (factorI_inv ctx t i).1 u hu
    subst this
    exact ⟨hprod, gs, ks, hacc, hf, hks⟩
  · obtain ⟨hu, tp, ws, hd, hph, hcase⟩ := (factorI_inv ctx t i).2.1 u ph hup
    subst hu
    refine ⟨⟨hprod, gs, ks, hacc, hf, hks⟩, gs ++ [ws], ks ++ [tp], ?_, ?_, ?_⟩
    · rw [hph, hacc, List.append_assoc]
    · refine List.rel_append hf ?_
      refine List.Forall₂.cons ?_ List.Forall₂.nil
      obtain ⟨hlt, hget⟩ := List.getElem?_eq_some.mp hd
      exact hget ▸ List.getElem_mem hlt
    · rw [List.prod_append, hks]
      simp only [List.prod_cons, List.prod_nil, mul_one]
      rcases hcase with hc | hc
      · rw [hc, hprod]
      · rw [mul_comm] at hc
        exact hc
  · obtain ⟨hu, tp, ws, hd, hv, hmod, -, -, -, -, -⟩ :=
      (factorI_inv ctx t i).2.2 u v huv
    subst hu
    subst hv
    refine ⟨⟨hprod, gs, ks, hacc, hf, hks⟩, ?_, gs ++ [ws], ks ++ [tp], ?_, ?_, ?_⟩
    · show tp * t.accProduct * (t.target / tp) = ctx.primesProduct
      have hdvd : tp ∣ t.target := Nat.dvd_of_mod_eq_zero hmod
      calc tp * t.accProduct * (t.target / tp)
          = t.accProduct * (tp * (t.target / tp)) := by ring
        _ = t.accProduct * t.target := by rw [Nat.mul_div_cancel' hdvd]
        _ = ctx.primesProduct := hprod
    · show t.accumulator ++ [ws] = mustGroups ctx ++ (gs ++ [ws])
      rw [hacc, List.append_assoc]
    · refine List.rel_append hf ?_
      refine List.Forall₂.cons ?_ List.Forall₂.nil
      obtain ⟨hlt, hget⟩ := List.getElem?_eq_some.mp hd
      exact hget ▸ List.getElem_mem hlt
    · show (ks ++ [tp]).prod = tp * t.accProduct
      rw [List.prod_append, hks]
      simp only [List.prod_cons, List.prod_nil, mul_one]
      ring

/-- One step of the `brute_force` while loop, unfolded. -/
theorem bfRun_succ_cons (ctx : Ctx) (fuel : Nat) (task : STask)
    (rest : List STask) (rs : Results) (em : List Phrase) :
    bfRun ctx (fuel + 1) { deque := task :: rest, results := rs, emitted := em } =
      match task.factorI ctx task.index with
      | .unchanged t =>
        bfRun ctx fuel { deque := t :: rest, results := rs, emitted := em }
      | .reject =>
        bfRun ctx fuel { deque := rest, results := rs, emitted := em }
      | .complete t ph =>
        bfRun ctx fuel { deque := t :: rest,
                         results := (push_if_unique rs ph).1,
                         emitted := em ++ [ph] }
      | .branch t newTask =>
        bfRun ctx fuel { deque := newTask :: t :: rest, results := rs,
                         emitted := em } := rfl

/-- The while loop preserves the task invariant on the queue and
soundness of the stored results. -/
theorem bfRun_resultsOK (ctx : Ctx) (fuel : Nat) :
    ∀ (dq : List STask) (rs : Results) (em : List Phrase),
      DequeOK ctx dq → ResultsOK ctx rs →
      ResultsOK ctx (bfRun ctx fuel
        { deque := dq, results := rs, emitted := em }).results := by
  induction fuel with
  | zero => exact fun dq rs em hd hr => hr
  | succ fuel ih =>
    intro dq rs em hd hr
    cases dq with
    | nil => exact hr
    | cons task rest =>
      have htask := hd task (List.mem_cons_self _ _)
      have hrest : DequeOK ctx rest :=
        fun t ht => hd t (List.mem_cons_of_mem _ ht)
      rw [bfRun_succ_cons]
      cases hstate : task.factorI ctx task.index with
      | unchanged t =>
        have hts := (factorI_taskOK ctx task task.index htask).1 t hstate
        refine ih (t :: rest) rs em ?_ hr
        intro t' ht'
        rcases List.mem_cons.mp ht' with h | h
        · exact h ▸ hts
        · exact hrest t' h
      | reject => exact ih rest rs em hrest hr
      | complete t ph =>
        obtain ⟨hts, gs, ks, hph, hf, hks⟩ :=
          (factorI_taskOK ctx task task.index htask).2.1 t ph hstate
        have hphok : PhraseOK ctx ph :=
          ⟨gs, ks, hph ▸ List.Perm.refl _, hf, hks⟩
        refine ih (t :: rest) _ _ ?_
          (push_if_unique_resultsOK ctx rs ph hr hphok)
        intro t' ht'
        rcases List.mem_cons.mp ht' with h | h
        · exact h ▸ hts
        · exact hrest t' h
      | branch t newTask =>
        obtain ⟨hts, htn⟩ :=
          (factorI_taskOK ctx task task.index htask).2.2 t newTask hstate
        refine ih (newTask :: t :: rest) rs em ?_ hr
        intro t' ht'
        rcases List.mem_cons.mp ht' with h | h
        · exact h ▸ htn
        · rcases List.mem_cons.mp h with h' | h'
          · exact h' ▸ hts
          · exact hrest t' h'

/-- Stored results are never removed by the while loop. -/
theorem bfRun_results_mono (ctx : Ctx) (fuel : Nat) :
    ∀ (dq : List STask) (rs : Results) (em : List Phrase),
      ∀ e ∈ rs, e ∈ (bfRun ctx fuel
        { deque := dq, results := rs, emitted := em }).results := by
  induction fuel with
  | zero => exact fun dq rs em e he => he
  | succ fuel ih =>
    intro dq rs em e he
    cases dq with
    | nil => exact he
    | cons task rest =>
      rw [bfRun_succ_cons]
      cases hstate : task.factorI ctx task.index with
      | unchanged t => exact ih (t :: rest) rs em e he
      | reject => exact ih rest rs em e he
      | complete t ph =>
        exact ih (t :: rest) _ _ e (push_if_unique_mem rs ph e he)
      | branch t newTask => exact ih (newTask :: t :: rest) rs em e he

/-- More fuel yields a superset of stored results. -/
theorem bfRun_fuel_mono (ctx : Ctx) (f1 : Nat) :
    ∀ (f2 : Nat), f1 ≤ f2 →
      ∀ (dq : List STask) (rs : Results) (em : List Phrase),
      ∀ e ∈ (bfRun ctx f1
          { deque := dq, results := rs, emitted := em }).results,
        e ∈ (bfRun ctx f2
          { deque := dq, results := rs, emitted := em }).results := by
  induction f1 with
  | zero => exact fun f2 h12 dq rs em e he => bfRun_results_mono ctx f2 dq rs em e he
  | succ f1 ih =>
    intro f2 h12 dq rs em e he
    cases f2 with
    | zero => omega
    | succ f2 =>
      cases dq with
      | nil => exact he
      | cons task rest =>
        rw [bfRun_succ_cons] at he ⊢
        cases hstate : task.factorI ctx task.index with
        | unchanged t =>
          rw [hstate] at he
          exact ih f2 (by omega) (t :: rest) rs em e he
        | reject =>
          rw [hstate] at he
          exact ih f2 (by omega) rest rs em e he
        | complete t ph =>
          rw [hstate] at he
          exact ih f2 (by omega) (t :: rest) _ _ e he
        | branch t newTask =>
          rw [hstate] at he
          exact ih f2 (by omega) (newTask :: t :: rest) rs em e he

/-- One seeding iteration preserves the queue and result invariants. -/
theorem seedStep_inv (ctx : Ctx) (base : STask) (hbase : TaskOK ctx base)
    (st : BFState) (i : Nat)
    (hd : DequeOK ctx st.deque) (hr : ResultsOK ctx st.results) :
    DequeOK ctx (seedStep ctx base st i).deque ∧
    ResultsOK ctx (seedStep ctx base st i).results := by
  unfold seedStep
  cases hstate : base.factorI ctx i with
  | unchanged t =>
    refine ⟨?_, ?_⟩
    · show DequeOK ctx (st.deque ++ [t])
      intro t' ht'
      rcases List.mem_append.mp ht' with h | h
      · exact hd t' h
      · simp at h
        rw [h]
        exact (factorI_taskOK ctx base i hbase).1 t hstate
    · exact hr
  | reject => exact ⟨hd, hr⟩
  | complete t ph =>
    obtain ⟨hts, gs, ks, hph, hf, hks⟩ :=
      (factorI_taskOK ctx base i hbase).2.1 t ph hstate
    refine ⟨?_, ?_⟩
    · show DequeOK ctx (st.deque ++ [t])
      intro t' ht'
      rcases List.mem_append.mp ht' with h | h
      · exact hd t' h
      · simp at h
        subst h
        exact hts
    · show ResultsOK ctx (push_if_unique st.results ph).1
      exact push_if_unique_resultsOK ctx st.results ph hr
        ⟨gs, ks, hph ▸ List.Perm.refl _, hf, hks⟩
  | branch t newTask =>
    obtain ⟨hts, htn⟩ :=
      (factorI_taskOK ctx base i hbase).2.2 t newTask hstate
    refine ⟨?_, ?_⟩
    · show DequeOK ctx (st.deque ++ [t, newTask])
      intro t' ht'
      rcases List.mem_append.mp ht' with h | h
      · exact hd t' h
      · rcases List.mem_cons.mp h with h' | h'
        · exact h' ▸ hts
        · simp at h'
          subst h'
          exact htn
    · exact hr

/-- The whole seeding loop preserves the invariants. -/
theorem seed_fold_inv (ctx : Ctx) (base : STask) (hbase : TaskOK ctx base) :
    ∀ (idxs : List Nat) (st : BFState),
      DequeOK ctx st.deque → ResultsOK ctx st.results →
      DequeOK ctx (idxs.foldl (seedStep ctx base) st).deque ∧
      ResultsOK ctx (idxs.foldl (seedStep ctx base) st).results := by
  intro idxs
  induction idxs with
  | nil => exact fun st hd hr => ⟨hd, hr⟩
  | cons i rest ih =>
    intro st hd hr
    have h := seedStep_inv ctx base hbase st i hd hr
    exact ih (seedStep ctx base st i) h.1 h.2

/-- The initial task satisfies the task invariant. -/
theorem taskNew_ok (ctx : Ctx) (maxWords : Nat) :
    TaskOK ctx (STask.new ctx maxWords) := by
  refine ⟨one_mul _, [], [], ?_, List.Forall₂.nil, rfl⟩
  simp [STask.new]

/-- C1: in every run of `brute_force` — including runs cut short by the
time budget (fuel) — every returned phrase is, up to group order, the
must-include prefix followed by word-groups of the lexicon, and the
product of the signatures of those groups times the must-include
signature equals the signature of the original input phrase; moreover a
shorter (time-truncated) run stores a subset of any longer run's results,
so truncation is never unsound. -/
theorem brute_force_sound_and_monotone (ctx : Ctx) (maxWords : Nat)
    (inputN mustN : Nat)
    (hwf : ∀ e ∈ ctx.dict, e.2 ≠ [] ∧ ∀ w ∈ e.2, sigWord w = some e.1)
    (hmust : sigWord ctx.mustInclude.flatten = some mustN)
    (hfold : mustN * ctx.primesProduct = inputN) :
    (∀ fuel p, p ∈ brute_force ctx maxWords fuel →
      ∃ gs, p.Perm (mustGroups ctx ++ gs) ∧
        (∀ g ∈ gs, ∃ k, (k, g) ∈ ctx.dict ∧ sigWord g.headI = some k) ∧
        mustN * (gs.map (fun g => (sigWord g.headI).getD 0)).prod = inputN) ∧
    (∀ f1 f2, f1 ≤ f2 → ∀ e ∈ (bruteForceState ctx maxWords f1).results,
      e ∈ (bruteForceState ctx maxWords f2).results) := by
  have hconv : ∀ (gs : List WGroup) (ks : List Nat),
      List.Forall₂ (fun (g : WGroup) (k : Nat) => (k, g) ∈ ctx.dict) gs ks →
      ks = gs.map (fun g => (sigWord g.headI).getD 0) ∧
      ∀ g ∈ gs, ∃ k, (k, g) ∈ ctx.dict ∧ sigWord g.headI = some k := by
    intro gs ks h
    induction h with
    | nil => exact ⟨rfl, by simp⟩
    | cons hgk hrest ih =>
      rename_i g k gs' ks'
      obtain ⟨hne, hall⟩ := hwf (k, g) hgk
      have hhead : sigWord g.headI = some k := by
        refine hall g.headI ?_
        cases g with
        | nil => exact absurd rfl hne
        | cons x xs => exact List.mem_cons_self _ _
      constructor
      · simp only [List.map_cons, hhead, Option.getD_some]
        rw [ih.1]
      · intro g' hg'
        rcases List.mem_cons.mp hg' with h' | h'
        · exact ⟨k, h' ▸ hgk, h' ▸ hhead⟩
        · exact ih.2 g' h'
  have hseed : ∀ fuel : Nat, ResultsOK ctx
      (bruteForceState ctx maxWords fuel).results := by
    intro fuel
    unfold bruteForceState
    have hinit := seed_fold_inv ctx (STask.new ctx maxWords)
      (taskNew_ok ctx maxWords) (List.range ctx.dict.length)
      { deque := [], results := [], emitted := [] }
      (by intro t ht; simp at ht) (by intro e he; simp at he)
    exact bfRun_resultsOK ctx fuel _ _ _ hinit.1 hinit.2
  constructor
  · intro fuel p hp
    obtain ⟨e, he, hep⟩ := List.mem_map.mp hp
    have hok : PhraseOK ctx e.2 := hseed fuel e he
    obtain ⟨gs, ks, hperm, hf, hks⟩ := hok
    obtain ⟨hkeq, hmem⟩ := hconv gs ks hf
    refine ⟨gs, hep ▸ hperm, hmem, ?_⟩
    rw [← hkeq, hks, hfold]
  · intro f1 f2 h12 e he
    unfold bruteForceState at he ⊢
    exact bfRun_fuel_mono ctx f1 f2 h12 _ _ _ e he

/-- Witness for `brute_force_sound_and_monotone`: the concrete "ab" run
with budget 2 and fuel 30 returns the phrase `[["a"],["b"]]`, which is a
permutation of lexicon groups whose signature product is 6. -/
theorem brute_force_sound_witness :
    ∃ gs, ([[[97]], [[98]]] : Phrase).Perm (mustGroups ctxAB ++ gs) ∧
      (∀ g ∈ gs, ∃ k, (k, g) ∈ ctxAB.dict ∧ sigWord g.headI = some k) ∧
      1 * (gs.map (fun g => (sigWord g.headI).getD 0)).prod = 6 :=
  (brute_force_sound_and_monotone ctxAB 2 6 1
      (by decide) (by rfl) (by decide)).1
    30 [[[97]], [[98]]] (by decide)
